import Mathlib

/-!
# Verification of the `pcg_rand` PCG random number generator library

This file gives a shallow embedding, over `Nat` with explicit `% 2^w`
arithmetic, of the core algorithms of the `pcg_rand` crate: the LCG engine
step (`src/lib.rs`, `make_rng_impl!`), the `XshRr` output permutation
(`src/outputmix.rs`), the stream strategies (`src/stream.rs`), the seed
codec (`src/seeds.rs`), the equidistribution extension
(`src/extension/mod.rs`), the hand-written `Pcg32Basic` generator
(`src/lib.rs`), and the jump-ahead (`advance`) algorithm, which is only
exercised by the crate's tests and is therefore modelled from the
specification text.  Machine integers of width `w` are represented as
natural numbers below `2 ^ w`; wrapping operations carry an explicit
`% 2 ^ w`.
-/

namespace PcgRand

/-! ## Byte-level seed codec (`src/seeds.rs`)

A byte buffer is a `List ℕ` whose entries are below 256.  `leRead`
recomposes a little-endian byte list into a natural number; `u64Write`
is the embedding of `LE::write_u64` (`byteorder` crate semantics as used
by `seeds.rs`). -/

/-- Little-endian recomposition of a byte list: byte `i` has weight `256^i`. -/
def leRead (bs : List ℕ) : ℕ :=
  bs.foldr (fun b acc => b + 256 * acc) 0

/-- `LE::read_u64`: read the first 8 bytes of the buffer, little-endian. -/
def u64Read (src : List ℕ) : ℕ :=
  leRead (src.take 8)

/-- `LE::write_u64`: the 8 little-endian bytes of a 64-bit value. -/
def u64Write (v : ℕ) : List ℕ :=
  (List.range 8).map fun i => v / 256 ^ i % 256

/-- `ReadByteOrder for u128 :: read` from `src/seeds.rs`: the first 8 bytes
are read as a little-endian `u64` called `top`, the next 8 bytes as
`bottom`, and the result is `(top << 64) | bottom`. -/
def u128Read (src : List ℕ) : ℕ :=
  let top := u64Read src
  let bottom := u64Read (src.drop 8)
  (top <<< 64) ||| bottom

/-- `ReadByteOrder for u128 :: write` from `src/seeds.rs`: the high 64 bits
are written little-endian into the first 8 bytes, the low 64 bits into the
next 8 bytes. -/
def u128Write (v : ℕ) : List ℕ :=
  u64Write (v >>> 64 % 2 ^ 64) ++ u64Write (v % 2 ^ 64)

/-- `PcgSeeder::get` from `src/seeds.rs`, for a field of `tsize` bytes:
panics (here: `none`) when fewer than `tsize` bytes remain unread,
otherwise returns the decoded little-endian value together with the new
read position. -/
def seederGet (tsize : ℕ) (data : List ℕ) (atPos : ℕ) : Option (ℕ × ℕ) :=
  if tsize > data.length - atPos then none
  else some (leRead ((data.drop atPos).take tsize), atPos + tsize)

/-! ## Generic helper lemmas on bit-level arithmetic -/

theorem leRead_lt (bs : List ℕ) (h : ∀ b ∈ bs, b < 256) :
    leRead bs < 256 ^ bs.length := by
  induction bs with
  | nil => simp [leRead]
  | cons b bs ih =>
    have hb : b < 256 := h b (List.mem_cons_self b bs)
    have hrest : leRead bs < 256 ^ bs.length :=
      ih fun x hx => h x (List.mem_cons_of_mem b hx)
    have hc : leRead (b :: bs) = b + 256 * leRead bs := rfl
    rw [hc, List.length_cons, pow_succ]
    calc b + 256 * leRead bs < 256 + 256 * leRead bs := by omega
    _ = 256 * (leRead bs + 1) := by ring
    _ ≤ 256 * 256 ^ bs.length := Nat.mul_le_mul_left 256 (by omega)
    _ = 256 ^ bs.length * 256 := by ring

theorem mul_pow_or_eq_add {a b : ℕ} (n : ℕ) (hb : b < 2 ^ n) :
    (2 ^ n * a) ||| b = 2 ^ n * a + b := by
  apply Nat.eq_of_testBit_eq
  intro j
  rw [Nat.testBit_or, Nat.testBit_mul_pow_two_add a hb j, Nat.testBit_mul_pow_two]
  by_cases h : j < n
  · simp [h, Nat.not_le_of_lt h]
  · have hbj : b.testBit j = false :=
      Nat.testBit_lt_two_pow
        (lt_of_lt_of_le hb (Nat.pow_le_pow_right (by norm_num) (by omega)))
    simp [h, hbj, Nat.le_of_not_lt]

theorem u64Write_length (v : ℕ) : (u64Write v).length = 8 := by
  simp [u64Write]

theorem u64Write_bytes_lt (v : ℕ) : ∀ b ∈ u64Write v, b < 256 := by
  intro b hbmem
  simp only [u64Write, List.mem_map] at hbmem
  obtain ⟨i, -, rfl⟩ := hbmem
  exact Nat.mod_lt _ (by norm_num)

theorem leRead_u64Write (v : ℕ) : leRead (u64Write v) = v % 2 ^ 64 := by
  have h8 : List.range 8 = [0, 1, 2, 3, 4, 5, 6, 7] := by decide
  simp only [u64Write, h8, List.map_cons, List.map_nil, leRead, List.foldr]
  norm_num
  omega

/-- The code's 128-bit read splits the buffer at byte 8: first half high,
second half low. -/
theorem u128Read_split (src : List ℕ) (hb : ∀ b ∈ src, b < 256) :
    u128Read src = leRead (src.take 8) * 2 ^ 64 + leRead ((src.drop 8).take 8) := by
  have hbot : leRead ((src.drop 8).take 8) < 2 ^ 64 := by
    have h1 : ∀ b ∈ (src.drop 8).take 8, b < 256 := fun b hbmem =>
      hb b (List.drop_subset 8 src (List.take_subset 8 (src.drop 8) hbmem))
    have h3 : ((src.drop 8).take 8).length ≤ 8 := by
      simp [List.length_take]
    calc leRead ((src.drop 8).take 8) < 256 ^ ((src.drop 8).take 8).length := leRead_lt _ h1
    _ ≤ 256 ^ 8 := Nat.pow_le_pow_right (by norm_num) h3
    _ = 2 ^ 64 := by norm_num
  have hc : u128Read src = (2 ^ 64 * leRead (src.take 8)) ||| leRead ((src.drop 8).take 8) := by
    simp only [u128Read, u64Read, Nat.shiftLeft_eq, Nat.mul_comm]
  rw [hc, mul_pow_or_eq_add 64 hbot]
  ring

/-! ## Claims C6 and C7: the seed codec -/

/-- C6: `PcgSeeder::get` signals a fatal error (modelled as `none`) exactly
when fewer than `sizeof(T)` bytes remain unread in the buffer; with at
least `sizeof(T)` bytes remaining it succeeds and never fails. -/
theorem seederGet_panics_iff_short (tsize : ℕ) (data : List ℕ) (atPos : ℕ) :
    (data.length - atPos < tsize → seederGet tsize data atPos = none) ∧
    (tsize ≤ data.length - atPos → (seederGet tsize data atPos).isSome = true) := by
  constructor
  · intro h
    simp [seederGet, h]
  · intro h
    rw [seederGet, if_neg (by omega)]
    rfl

/-- Witness for C6: a 2-byte buffer at position 1 fails an 8-byte read and
succeeds on a 1-byte read from position 0. -/
theorem seederGet_panics_iff_short_witness :
    seederGet 8 [3, 5] 1 = none ∧ (seederGet 1 [3, 5] 0).isSome = true :=
  ⟨(seederGet_panics_iff_short 8 [3, 5] 1).1 (by decide),
   (seederGet_panics_iff_short 1 [3, 5] 0).2 (by decide)⟩

/-- A concrete 16-byte buffer: first byte 1, all others 0. -/
def c7Buf : List ℕ :=
  [1, 0, 0, 0, 0, 0, 0, 0, 0, 0, 0, 0, 0, 0, 0, 0]

/-- C7 counterexample: the 128-bit read is NOT little-endian over the whole
16-byte field.  On the buffer with first byte 1 and the rest 0, a
whole-field little-endian read would give 1, but the code yields `2^64`:
the first 8 bytes land in the HIGH half of the result. -/
theorem u128Read_not_whole_field_le :
    u128Read c7Buf = 2 ^ 64 ∧ leRead (c7Buf.take 16) = 1 ∧
      u128Read c7Buf ≠ leRead (c7Buf.take 16) :=
  ⟨by decide, by decide, by decide⟩

/-- C7 amended: the 128-bit read interprets the FIRST 8 bytes (read as a
little-endian `u64`) as the HIGH-order 64 bits of the result and the
second 8 bytes as the LOW-order 64 bits; `write` produces the inverse
layout, so reading back a written value is the identity on 128-bit
values. -/
theorem u128Read_mixed_endian (src : List ℕ) (hb : ∀ b ∈ src, b < 256) :
    u128Read src = leRead (src.take 8) * 2 ^ 64 + leRead ((src.drop 8).take 8) ∧
    ∀ v : ℕ, v < 2 ^ 128 → u128Read (u128Write v) = v := by
  refine ⟨u128Read_split src hb, ?_⟩
  intro v hv
  have htake : (u128Write v).take 8 = u64Write (v >>> 64 % 2 ^ 64) := by
    rw [u128Write, ← u64Write_length (v >>> 64 % 2 ^ 64)]
    exact List.take_left _ _
  have hdrop : (u128Write v).drop 8 = u64Write (v % 2 ^ 64) := by
    rw [u128Write, ← u64Write_length (v >>> 64 % 2 ^ 64)]
    exact List.drop_left _ _
  have hwb : ∀ b ∈ u128Write v, b < 256 := by
    intro b hbmem
    rw [u128Write, List.mem_append] at hbmem
    rcases hbmem with hbmem | hbmem
    · exact u64Write_bytes_lt _ b hbmem
    · exact u64Write_bytes_lt _ b hbmem
  rw [u128Read_split _ hwb, htake, hdrop]
  have hd : (u64Write (v % 2 ^ 64)).take 8 = u64Write (v % 2 ^ 64) := by
    rw [← u64Write_length (v % 2 ^ 64)]
    exact List.take_length _
  rw [hd, leRead_u64Write, leRead_u64Write]
  rw [Nat.shiftRight_eq_div_pow]
  have h1 : v / 2 ^ 64 < 2 ^ 64 := by
    apply Nat.div_lt_of_lt_mul
    calc v < 2 ^ 128 := hv
    _ = 2 ^ 64 * 2 ^ 64 := by norm_num
  have h2 : v / 2 ^ 64 % 2 ^ 64 = v / 2 ^ 64 := Nat.mod_eq_of_lt h1
  omega

/-- Witness for C7's amended theorem at a concrete buffer and value. -/
theorem u128Read_mixed_endian_witness :
    u128Read c7Buf = leRead (c7Buf.take 8) * 2 ^ 64 + leRead ((c7Buf.drop 8).take 8) ∧
      u128Read (u128Write 300) = 300 :=
  ⟨(u128Read_mixed_endian c7Buf (by decide)).1,
   (u128Read_mixed_endian c7Buf (by decide)).2 300 (by norm_num)⟩

/-! ## Multiplier and stream constants (`src/multiplier.rs`, `src/stream.rs`) -/

/-- `DefaultMultiplier::multiplier()` for `u64`. -/
def defaultMultiplier64 : ℕ := 6364136223846793005

/-- `DefaultMultiplier::multiplier()` for the 128-bit width. -/
def defaultMultiplier128 : ℕ := 47026247687942121848144207491837523525

/-- `OneSeqStream` increment constant for `u32`. -/
def oneSeqInc32 : ℕ := 2891336453

/-- `OneSeqStream` increment constant for `u64`. -/
def oneSeqInc64 : ℕ := 1442695040888963407

/-- `OneSeqStream` increment constant for the 128-bit width:
`u128::from_parts(6364136223846793005, 1442695040888963407)`. -/
def oneSeqInc128 : ℕ := 6364136223846793005 * 2 ^ 64 + 1442695040888963407

/-- `SpecificSeqStream::build()` default increment for `u32`. -/
def specificSeqBuild32 : ℕ := 2891336453

/-- `SpecificSeqStream::build()` default increment for `u64`. -/
def specificSeqBuild64 : ℕ := 1442695040888963407

/-- `SpecificSeqStream::build()` default increment for the 128-bit width. -/
def specificSeqBuild128 : ℕ := 6364136223846793005 * 2 ^ 64 + 1442695040888963407

/-- `SpecificSeqStream::set_stream`: stores `stream_seq | 1`. -/
def specificSeqSetStream (streamSeq : ℕ) : ℕ := streamSeq ||| 1

/-! ## The `XshRr` output permutation (`src/outputmix.rs`) -/

/-- The `wantedopbits` table of `XshRrMixin::output`, keyed on the output
width. -/
def wantedOpbits (x : ℕ) : ℕ :=
  if 128 ≤ x then 7
  else if 64 ≤ x then 6
  else if 32 ≤ x then 5
  else if 16 ≤ x then 4
  else 3

/-- `rotate_right` on a `w`-bit value: the machine rotate used by
`result.rotate_right(amprot as u32)`. -/
def rotateRightW (w v r : ℕ) : ℕ :=
  let s := r % w
  (v >>> s) ||| ((v <<< ((w - s) % w)) % 2 ^ w)

/-- `XshRrMixin::output` for state width `w` and output width `x`,
translated line by line from `src/outputmix.rs`. -/
def xshRrOutput (w x state : ℕ) : ℕ :=
  let sparebits := w - x
  let xtypebits := x
  let wantedopbits := wantedOpbits x
  let opbits := if wantedopbits ≤ sparebits then wantedopbits else sparebits
  let amplifier := wantedopbits - opbits
  let mask := 2 ^ opbits - 1
  let topspare := opbits
  let bottomspare := sparebits - topspare
  let xshift := (topspare + xtypebits) / 2
  let rot := if opbits ≠ 0 then (state >>> (w - opbits)) &&& mask else 0
  let amprot := (rot <<< amplifier) &&& mask
  let state2 := state ^^^ (state >>> xshift)
  let result := (state2 >>> bottomspare) % 2 ^ x
  rotateRightW x result amprot

/-! ## The generic engine step (`src/lib.rs`, `make_rng_impl!`) -/

/-- A generator instance: the LCG state together with the stream
strategy's stored increment. -/
structure Engine where
  state : ℕ
  inc : ℕ
  deriving DecidableEq

/-- One `next_u32`/`next_u64` call of `PcgEngine`, from `make_rng_impl!`:
capture `oldstate`, advance the state by the LCG recurrence using the
stream's increment and the multiplier, and return the output permutation
of the OLD state. -/
def engineNext (w mul : ℕ) (output : ℕ → ℕ) (e : Engine) : ℕ × Engine :=
  let oldstate := e.state
  let inc := e.inc
  let newstate := (inc + (oldstate * mul) % 2 ^ w) % 2 ^ w
  (output oldstate, { state := newstate, inc := e.inc })

/-- The `Pcg32` = `SetseqXshRr6432` step: 64-bit state, 32-bit output,
default multiplier, `XshRr` output permutation. -/
def pcg32Next (e : Engine) : ℕ × Engine :=
  engineNext 64 defaultMultiplier64 (xshRrOutput 64 32) e

/-! ## The hand-written minimal generator `Pcg32Basic` (`src/lib.rs`) -/

/-- One `next_u32` call of `Pcg32Basic`, translated from `src/lib.rs`:
wrapping LCG update with effective increment `inc | 1`, then the inline
xorshift-and-random-rotation permutation of the old state. -/
def pcg32BasicNext (e : Engine) : ℕ × Engine :=
  let oldstate := e.state
  let newstate := ((oldstate * 6364136223846793005) % 2 ^ 64 + (e.inc ||| 1)) % 2 ^ 64
  let xorshifted := (((oldstate >>> 18) ^^^ oldstate) >>> 27) % 2 ^ 32
  let rot := (oldstate >>> 59) % 2 ^ 32
  let shl := ((2 ^ 32 - rot) % 2 ^ 32) &&& 31
  let out := (xorshifted >>> rot) ||| ((xorshifted <<< shl) % 2 ^ 32)
  (out, { state := newstate, inc := e.inc })

/-- The engine state after `n` calls of `Pcg32Basic::next_u32`. -/
def basicStateN (e : Engine) : ℕ → Engine
  | 0 => e
  | n + 1 => (pcg32BasicNext (basicStateN e n)).2

/-- The `n`-th output (0-based) of `Pcg32Basic` started at `e`. -/
def basicOutputN (e : Engine) (n : ℕ) : ℕ :=
  (pcg32BasicNext (basicStateN e n)).1

/-! ## Claim C2: the engine step permutes the old state -/

/-- C2: each `next` call returns the output permutation of the PRE-update
state, sets the state to `increment + oldstate * multiplier (mod 2^w)`,
and leaves the stream's increment unchanged. -/
theorem engineNext_old_state_permuted (w mul : ℕ) (output : ℕ → ℕ) (e : Engine) :
    (engineNext w mul output e).1 = output e.state ∧
    (engineNext w mul output e).2.state = (e.inc + e.state * mul) % 2 ^ w ∧
    (engineNext w mul output e).2.inc = e.inc := by
  refine ⟨rfl, ?_, rfl⟩
  show (e.inc + (e.state * mul) % 2 ^ w) % 2 ^ w = (e.inc + e.state * mul) % 2 ^ w
  exact (Nat.mod_modEq (e.state * mul) (2 ^ w)).add_left e.inc

/-! ## Claim C5: stream increments are odd -/

theorem setStream_fold_odd :
    ∀ (vs : List ℕ) (i : ℕ), i % 2 = 1 →
      (vs.foldl (fun _ v => specificSeqSetStream v) i) % 2 = 1 := by
  intro vs
  induction vs with
  | nil => intro i hi; exact hi
  | cons v vs ih =>
    intro i _
    rw [List.foldl_cons]
    exact ih (specificSeqSetStream v) (by simp [specificSeqSetStream])

/-- C5: the `OneSeq` constants at all three supported widths are odd; a
freshly built `SpecificSeqStream` stores the `OneSeq` constant of its
width; `set_stream(v)` stores `v | 1`, which is odd; and oddness of the
stored stream is preserved by every sequence of `set_stream` calls
starting from an odd value (in particular from the default). -/
theorem stream_oddness_invariant (v i : ℕ) (vs : List ℕ) (hi : i % 2 = 1) :
    oneSeqInc32 % 2 = 1 ∧ oneSeqInc64 % 2 = 1 ∧ oneSeqInc128 % 2 = 1 ∧
    specificSeqBuild32 = oneSeqInc32 ∧ specificSeqBuild64 = oneSeqInc64 ∧
    specificSeqBuild128 = oneSeqInc128 ∧
    specificSeqSetStream v = (v ||| 1) ∧ specificSeqSetStream v % 2 = 1 ∧
    (vs.foldl (fun _ u => specificSeqSetStream u) i) % 2 = 1 := by
  refine ⟨by decide, by decide, ?_, rfl, rfl, rfl, rfl, ?_, setStream_fold_odd vs i hi⟩
  · show (6364136223846793005 * 2 ^ 64 + 1442695040888963407) % 2 = 1
    omega
  · simp [specificSeqSetStream]

/-- Witness for C5 at concrete arguments. -/
theorem stream_oddness_invariant_witness :
    (6 : ℕ) % 2 = 1 ∨
      (specificSeqSetStream 4 = (4 ||| 1) ∧
        ([2, 4, 6].foldl (fun _ u => specificSeqSetStream u) 7) % 2 = 1) :=
  Or.inr ⟨(stream_oddness_invariant 4 7 [2, 4, 6] (by decide)).2.2.2.2.2.2.1,
    (stream_oddness_invariant 4 7 [2, 4, 6] (by decide)).2.2.2.2.2.2.2.2⟩

/-! ## Claim C9: `Pcg32Basic` stream aliasing between seeds 12 and 13 -/

theorem pcg32BasicNext_out_congr (e₁ e₂ : Engine) (h : e₁.state = e₂.state) :
    (pcg32BasicNext e₁).1 = (pcg32BasicNext e₂).1 := by
  simp only [pcg32BasicNext, h]

theorem basic_aliasing_states :
    ∀ n, (basicStateN ⟨11, 12⟩ n).state = (basicStateN ⟨11, 13⟩ n).state ∧
      (basicStateN ⟨11, 12⟩ n).inc = 12 ∧ (basicStateN ⟨11, 13⟩ n).inc = 13 := by
  intro n
  induction n with
  | zero => exact ⟨rfl, rfl, rfl⟩
  | succ n ih =>
    obtain ⟨hst, h12, h13⟩ := ih
    refine ⟨?_, ?_, ?_⟩
    · show (pcg32BasicNext (basicStateN ⟨11, 12⟩ n)).2.state
        = (pcg32BasicNext (basicStateN ⟨11, 13⟩ n)).2.state
      simp only [pcg32BasicNext, hst, h12, h13,
        show (12 : ℕ) ||| 1 = 13 from by decide, show (13 : ℕ) ||| 1 = 13 from by decide]
    · show (pcg32BasicNext (basicStateN ⟨11, 12⟩ n)).2.inc = 12
      simp only [pcg32BasicNext, h12]
    · show (pcg32BasicNext (basicStateN ⟨11, 13⟩ n)).2.inc = 13
      simp only [pcg32BasicNext, h13]

/-- C9: `Pcg32Basic` seeded with `[11, 12]` and with `[11, 13]` produces
identical output sequences at every index, because the state update ORs
the stored increment with 1, so both use the same effective odd
increment 13. -/
theorem pcg_basic_aliasing_12_13 :
    (∀ n, basicOutputN ⟨11, 12⟩ n = basicOutputN ⟨11, 13⟩ n) ∧
      (12 : ℕ) ||| 1 = 13 ∧ (13 : ℕ) ||| 1 = 13 := by
  refine ⟨?_, by decide, by decide⟩
  intro n
  exact pcg32BasicNext_out_congr _ _ (basic_aliasing_states n).1

/-! ## Claim C3: the `XshRr` permutation in closed form -/

theorem shiftRight_lt_pow {t a b c : ℕ} (ht : t < 2 ^ c) (h : a + b = c) :
    t >>> a < 2 ^ b := by
  rw [Nat.shiftRight_eq_div_pow]
  apply Nat.div_lt_of_lt_mul
  calc t < 2 ^ c := ht
  _ = 2 ^ a * 2 ^ b := by rw [← pow_add, h]

/-- The `XshRr` permutation for the `Pcg32` width pair (64-bit state,
32-bit output) in fully concrete form: xorshift by 18, narrow the result
shifted by 27 to 32 bits, rotate right by the top 5 bits of the state. -/
theorem xshRr6432_formula (t : ℕ) (ht : t < 2 ^ 64) :
    xshRrOutput 64 32 t
      = rotateRightW 32 (((t ^^^ (t >>> 18)) >>> 27) % 2 ^ 32) (t >>> 59) := by
  have h59 : t >>> 59 < 2 ^ 5 := shiftRight_lt_pow ht (by norm_num)
  have hargs : ((t >>> 59) &&& 31) &&& 31 = t >>> 59 := by
    have h31 : (31 : ℕ) = 2 ^ 5 - 1 := by norm_num
    rw [Nat.and_assoc, Nat.and_self, h31, Nat.and_pow_two_sub_one_eq_mod,
      Nat.mod_eq_of_lt (by omega)]
  simp only [xshRrOutput, wantedOpbits]
  norm_num
  rw [hargs]

/-- C3: `XshRrMixin::output` computes exactly the claimed bit recipe: with
`opbits = min(wantedopbits, sparebits)`, the rotation amount is the top
`opbits` bits of the state, amplified by `wantedopbits - opbits` and
masked to `opbits` bits; the state is xorshifted by `(opbits + X)/2`,
shifted down by `sparebits - opbits`, narrowed to `X` bits and rotated
right; and for state width 64 and output width 32 this is
`((state ^ (state >> 18)) >> 27)` narrowed to 32 bits and rotated right
by the top 5 bits of the state. -/
theorem xshRr_output_spec (w x s : ℕ) (_hx : x ≤ w) (hs : s < 2 ^ w) :
    xshRrOutput w x s
      = rotateRightW x
          (((s ^^^ (s / 2 ^ ((min (wantedOpbits x) (w - x) + x) / 2)))
              / 2 ^ (w - x - min (wantedOpbits x) (w - x))) % 2 ^ x)
          (s / 2 ^ (w - min (wantedOpbits x) (w - x))
              * 2 ^ (wantedOpbits x - min (wantedOpbits x) (w - x))
            % 2 ^ min (wantedOpbits x) (w - x)) ∧
    ∀ t, t < 2 ^ 64 →
      xshRrOutput 64 32 t
        = rotateRightW 32 (((t ^^^ (t >>> 18)) >>> 27) % 2 ^ 32) (t >>> 59) := by
  refine ⟨?_, fun t ht => xshRr6432_formula t ht⟩
  have hmin : (if wantedOpbits x ≤ w - x then wantedOpbits x else w - x)
      = min (wantedOpbits x) (w - x) := Nat.min_def.symm
  have hopw : min (wantedOpbits x) (w - x) ≤ w :=
    le_trans (Nat.min_le_right _ _) (Nat.sub_le _ _)
  have hrot : (if min (wantedOpbits x) (w - x) ≠ 0 then
        (s >>> (w - min (wantedOpbits x) (w - x)))
          &&& (2 ^ min (wantedOpbits x) (w - x) - 1)
      else 0) = s / 2 ^ (w - min (wantedOpbits x) (w - x)) := by
    by_cases h0 : min (wantedOpbits x) (w - x) = 0
    · rw [if_neg (by simp [h0]), h0]
      rw [Nat.sub_zero, Nat.div_eq_of_lt hs]
    · rw [if_pos h0, Nat.shiftRight_eq_div_pow, Nat.and_pow_two_sub_one_eq_mod]
      apply Nat.mod_eq_of_lt
      apply Nat.div_lt_of_lt_mul
      calc s < 2 ^ w := hs
      _ = 2 ^ (w - min (wantedOpbits x) (w - x)) * 2 ^ min (wantedOpbits x) (w - x) := by
          rw [← pow_add, Nat.sub_add_cancel hopw]
  simp only [xshRrOutput]
  rw [hmin, hrot, Nat.shiftLeft_eq, Nat.and_pow_two_sub_one_eq_mod]
  simp only [Nat.shiftRight_eq_div_pow]

/-- Witness for C3 at the concrete input `w = 64`, `x = 32`,
`s = 1234567890123456789`. -/
theorem xshRr_output_spec_witness :
    xshRrOutput 64 32 1234567890123456789
      = rotateRightW 32
          (((1234567890123456789 ^^^ (1234567890123456789 / 2 ^ ((min (wantedOpbits 32) (64 - 32) + 32) / 2)))
              / 2 ^ (64 - 32 - min (wantedOpbits 32) (64 - 32))) % 2 ^ 32)
          (1234567890123456789 / 2 ^ (64 - min (wantedOpbits 32) (64 - 32))
              * 2 ^ (wantedOpbits 32 - min (wantedOpbits 32) (64 - 32))
            % 2 ^ min (wantedOpbits 32) (64 - 32)) :=
  (xshRr_output_spec 64 32 1234567890123456789 (by norm_num) (by norm_num)).1

/-! ## Claim C10: the generic `Pcg32` engine refines `Pcg32Basic` -/

theorem or_one_of_odd (i : ℕ) (hi : i % 2 = 1) : i ||| 1 = i := by
  apply Nat.eq_of_testBit_eq
  intro j
  rw [Nat.testBit_or]
  cases j with
  | zero => simp [hi]
  | succ j => simp [Nat.testBit_succ]

/-- C10: for every 64-bit state and odd increment, one step of the generic
`Pcg32` engine (`PcgEngine<u64, u32, SpecificSeqStream, DefaultMultiplier,
XshRrMixin>`) produces exactly the output and successor state of the
hand-written `Pcg32Basic`. -/
theorem pcg32_refines_pcg32Basic (e : Engine) (hs : e.state < 2 ^ 64)
    (hi : e.inc % 2 = 1) :
    pcg32Next e = pcg32BasicNext e := by
  have h59 : e.state >>> 59 < 2 ^ 5 := shiftRight_lt_pow hs (by norm_num)
  have hout : xshRrOutput 64 32 e.state
      = ((((e.state >>> 18) ^^^ e.state) >>> 27) % 2 ^ 32) >>> ((e.state >>> 59) % 2 ^ 32)
          ||| (((((e.state >>> 18) ^^^ e.state) >>> 27) % 2 ^ 32)
              <<< (((2 ^ 32 - (e.state >>> 59) % 2 ^ 32) % 2 ^ 32) &&& 31) % 2 ^ 32) := by
    rw [xshRr6432_formula e.state hs, rotateRightW]
    have hxc : e.state ^^^ (e.state >>> 18) = (e.state >>> 18) ^^^ e.state := Nat.xor_comm _ _
    have hrm : (e.state >>> 59) % 2 ^ 32 = e.state >>> 59 :=
      Nat.mod_eq_of_lt (by omega)
    have hr32 : e.state >>> 59 % 32 = e.state >>> 59 := Nat.mod_eq_of_lt h59
    have hshl : (32 - e.state >>> 59 % 32) % 32
        = ((2 ^ 32 - (e.state >>> 59) % 2 ^ 32) % 2 ^ 32) &&& 31 := by
      have h31 : (31 : ℕ) = 2 ^ 5 - 1 := by norm_num
      rw [h31, Nat.and_pow_two_sub_one_eq_mod, hrm, hr32]
      have h32 : (2 : ℕ) ^ 32 = 4294967296 := by norm_num
      have h5 : (2 : ℕ) ^ 5 = 32 := by norm_num
      rw [h32, h5]
      omega
    rw [hxc, hrm, hshl, hr32, hrm]
  have hst : (e.inc + (e.state * defaultMultiplier64) % 2 ^ 64) % 2 ^ 64
      = ((e.state * 6364136223846793005) % 2 ^ 64 + (e.inc ||| 1)) % 2 ^ 64 := by
    rw [or_one_of_odd e.inc hi, defaultMultiplier64, Nat.add_comm]
  simp only [pcg32Next, engineNext, pcg32BasicNext]
  rw [hout, hst]

/-- Witness for C10 at state 987654321 and increment 13. -/
theorem pcg32_refines_pcg32Basic_witness :
    pcg32Next ⟨987654321, 13⟩ = pcg32BasicNext ⟨987654321, 13⟩ :=
  pcg32_refines_pcg32Basic ⟨987654321, 13⟩ (by norm_num) (by norm_num)

/-! ## The equidistribution extension (`src/extension/mod.rs`) -/

/-- An extended generator: the wrapped engine plus the extension array. -/
structure ExtState where
  state : ℕ
  inc : ℕ
  ext : List ℕ

/-- One `next` call of `ExtPcg`, translated from `src/extension/mod.rs`:
advance the wrapped engine's state, pick the array slot from the low
`k` bits of the UPDATED state, XOR the permuted old state with the slot's
current value, then bump the slot by one (wrapping at the output
width `x`). -/
def extPcgNext (w x k mul : ℕ) (output : ℕ → ℕ) (es : ExtState) : ℕ × ExtState :=
  let oldstate := es.state
  let newstate := (es.inc + (oldstate * mul) % 2 ^ w) % 2 ^ w
  let mask := 2 ^ k - 1
  let pick := newstate &&& mask
  let extVal := es.ext.getD pick 0
  let ext2 := es.ext.set pick ((extVal + 1) % 2 ^ x)
  (output oldstate ^^^ extVal, { state := newstate, inc := es.inc, ext := ext2 })

/-! ## Claim C4: one step of the extended generator -/

/-- C4: on each `next` of the extended generator with array length `2^k`:
the new engine state follows the LCG recurrence; the slot index is the
low `k` bits of the UPDATED state; the returned value is the permuted
old state XORed with the slot's pre-increment value; afterwards that slot
alone is incremented by one (wrapping at the output width) and every
other slot is unchanged. -/
theorem extPcg_next_spec (w x k mul : ℕ) (output : ℕ → ℕ) (es : ExtState)
    (hlen : es.ext.length = 2 ^ k) :
    (extPcgNext w x k mul output es).2.state = (es.inc + es.state * mul) % 2 ^ w ∧
    (extPcgNext w x k mul output es).1
      = output es.state
          ^^^ es.ext.getD ((extPcgNext w x k mul output es).2.state % 2 ^ k) 0 ∧
    (extPcgNext w x k mul output es).2.ext.getD
        ((extPcgNext w x k mul output es).2.state % 2 ^ k) 0
      = (es.ext.getD ((extPcgNext w x k mul output es).2.state % 2 ^ k) 0 + 1) % 2 ^ x ∧
    (∀ j, j ≠ (extPcgNext w x k mul output es).2.state % 2 ^ k →
      (extPcgNext w x k mul output es).2.ext.getD j 0 = es.ext.getD j 0) ∧
    (extPcgNext w x k mul output es).2.ext.length = es.ext.length := by
  have hstate : (extPcgNext w x k mul output es).2.state
      = (es.inc + (es.state * mul) % 2 ^ w) % 2 ^ w := rfl
  have hpick : (extPcgNext w x k mul output es).2.state &&& (2 ^ k - 1)
      = (extPcgNext w x k mul output es).2.state % 2 ^ k :=
    Nat.and_pow_two_sub_one_eq_mod _ k
  have hpicklt : (extPcgNext w x k mul output es).2.state % 2 ^ k < es.ext.length := by
    rw [hlen]
    exact Nat.mod_lt _ (Nat.pos_pow_of_pos k (by norm_num))
  refine ⟨?_, ?_, ?_, ?_, ?_⟩
  · rw [hstate]
    exact (Nat.mod_modEq (es.state * mul) (2 ^ w)).add_left es.inc
  · show output es.state
        ^^^ es.ext.getD ((es.inc + (es.state * mul) % 2 ^ w) % 2 ^ w &&& (2 ^ k - 1)) 0
      = _
    rw [← hstate, hpick]
  · show (es.ext.set ((es.inc + (es.state * mul) % 2 ^ w) % 2 ^ w &&& (2 ^ k - 1))
        ((es.ext.getD ((es.inc + (es.state * mul) % 2 ^ w) % 2 ^ w &&& (2 ^ k - 1)) 0 + 1)
          % 2 ^ x)).getD ((extPcgNext w x k mul output es).2.state % 2 ^ k) 0 = _
    rw [← hstate, hpick]
    rw [List.getD_eq_getElem?_getD, List.getElem?_set_self (by simpa using hpicklt)]
    rfl
  · intro j hj
    show (es.ext.set ((es.inc + (es.state * mul) % 2 ^ w) % 2 ^ w &&& (2 ^ k - 1))
        ((es.ext.getD ((es.inc + (es.state * mul) % 2 ^ w) % 2 ^ w &&& (2 ^ k - 1)) 0 + 1)
          % 2 ^ x)).getD j 0 = es.ext.getD j 0
    rw [← hstate, hpick]
    rw [List.getD_eq_getElem?_getD, List.getElem?_set_ne (fun h => hj h.symm),
      List.getD_eq_getElem?_getD]
  · show ((es.ext.set _ _).length = es.ext.length)
    exact List.length_set es.ext _ _

/-- Witness for C4 at a concrete extended generator with `k = 1`. -/
theorem extPcg_next_spec_witness :
    (([3, 4] : List ℕ).length = 2 ^ 1) ∧
    (extPcgNext 64 32 1 defaultMultiplier64 (xshRrOutput 64 32) ⟨5, 7, [3, 4]⟩).2.state
      = (7 + 5 * defaultMultiplier64) % 2 ^ 64 ∧
    (extPcgNext 64 32 1 defaultMultiplier64 (xshRrOutput 64 32) ⟨5, 7, [3, 4]⟩).2.ext.getD 1 0
      = ([3, 4] : List ℕ).getD 1 0 :=
  ⟨by decide,
   (extPcg_next_spec 64 32 1 defaultMultiplier64 (xshRrOutput 64 32) ⟨5, 7, [3, 4]⟩
      (by decide)).1,
   (extPcg_next_spec 64 32 1 defaultMultiplier64 (xshRrOutput 64 32) ⟨5, 7, [3, 4]⟩
      (by decide)).2.2.2.1 1 (by decide)⟩

/-! ## Claim C1: jump-ahead (`advance`)

The `advance` implementation is exercised by `tests/advance_tests.rs` but
its body is not present under `src/`, so it is modelled from the
specification's description of the binary-doubling loop over the affine
composition semigroup. -/

/-- One LCG state update, as performed by every `next` call (the state
component of `engineNext`). -/
def lcgStep (w mul inc s : ℕ) : ℕ :=
  (inc + (s * mul) % 2 ^ w) % 2 ^ w

/-- The state after `n` sequential `next` calls. -/
def lcgIterN (w mul inc : ℕ) : ℕ → ℕ → ℕ
  | 0, s => s
  | n + 1, s => lcgIterN w mul inc n (lcgStep w mul inc s)

/-- Modelled from the spec: the binary-doubling loop of `advance`.  The
accumulators `(accMult, accPlus)` start at `(1, 0)` and the doubling pair
`(curMult, curPlus)` at `(multiplier, increment)`; for each bit of
`delta` from least to most significant, a set bit folds the current pair
into the accumulator, and the current pair is squared at every step.
All arithmetic wraps mod `2^w`. -/
def advanceLoop (w curMult curPlus accMult accPlus delta : ℕ) : ℕ × ℕ :=
  if h : delta = 0 then (accMult, accPlus)
  else
    advanceLoop w ((curMult * curMult) % 2 ^ w) ((curMult * curPlus + curPlus) % 2 ^ w)
      (if delta % 2 = 1 then (curMult * accMult) % 2 ^ w else accMult)
      (if delta % 2 = 1 then (curMult * accPlus + curPlus) % 2 ^ w else accPlus)
      (delta / 2)
termination_by delta
decreasing_by exact Nat.div_lt_self (Nat.pos_of_ne_zero h) one_lt_two

/-- Modelled from the spec: `advance(delta)` computes the affine
coefficients for `delta` steps and applies them to the state, all
mod `2^w`. -/
def advance (w mul inc delta s : ℕ) : ℕ :=
  let p := advanceLoop w mul inc 1 0 delta
  (p.1 * s + p.2) % 2 ^ w

/-- Application of an affine pair `(a, b)` to a state: `a*s + b mod 2^w`. -/
def affApply (w : ℕ) (p : ℕ × ℕ) (s : ℕ) : ℕ :=
  (p.1 * s + p.2) % 2 ^ w

theorem affApply_fold (w cm cp am ap s : ℕ) :
    affApply w ((cm * am) % 2 ^ w, (cm * ap + cp) % 2 ^ w) s
      = affApply w (cm, cp) (affApply w (am, ap) s) := by
  simp only [affApply]
  calc ((cm * am) % 2 ^ w * s + (cm * ap + cp) % 2 ^ w) % 2 ^ w
      = ((cm * am) * s + (cm * ap + cp)) % 2 ^ w :=
        ((Nat.mod_modEq (cm * am) (2 ^ w)).mul_right s).add
          (Nat.mod_modEq (cm * ap + cp) (2 ^ w))
    _ = (cm * ((am * s + ap)) + cp) % 2 ^ w := by ring_nf
    _ = (cm * ((am * s + ap) % 2 ^ w) + cp) % 2 ^ w :=
        (((Nat.mod_modEq (am * s + ap) (2 ^ w)).mul_left cm).add_right cp).symm

theorem iterate_double (g : ℕ → ℕ) (k : ℕ) (y : ℕ) :
    (fun t => g (g t))^[k] y = g^[2 * k] y := by
  induction k generalizing y with
  | zero => simp
  | succ k ih =>
    rw [Function.iterate_succ_apply, ih]
    have h2 : 2 * (k + 1) = 2 * k + 2 := by ring
    rw [h2, Function.iterate_add_apply]
    have hgg : g^[2] y = g (g y) := by
      simp [Function.iterate_succ_apply]
    rw [hgg]

theorem advanceLoop_affApply (w : ℕ) : ∀ delta cm cp am ap s,
    affApply w (advanceLoop w cm cp am ap delta) s
      = (fun t => affApply w (cm, cp) t)^[delta] (affApply w (am, ap) s) := by
  intro delta
  induction delta using Nat.strong_induction_on with
  | _ delta ih =>
    intro cm cp am ap s
    rw [advanceLoop]
    by_cases h0 : delta = 0
    · rw [dif_pos h0, h0]
      simp
    · rw [dif_neg h0]
      have hlt : delta / 2 < delta := Nat.div_lt_self (Nat.pos_of_ne_zero h0) one_lt_two
      rw [ih (delta / 2) hlt]
      have hsq : (fun t => affApply w ((cm * cm) % 2 ^ w, (cm * cp + cp) % 2 ^ w) t)
          = fun t => affApply w (cm, cp) (affApply w (cm, cp) t) :=
        funext fun t => affApply_fold w cm cp cm cp t
      rw [hsq, iterate_double]
      rcases Nat.mod_two_eq_zero_or_one delta with hpar | hpar
      · rw [if_neg (by omega), if_neg (by omega)]
        have hd : 2 * (delta / 2) = delta := by omega
        rw [hd]
      · rw [if_pos hpar, if_pos hpar, affApply_fold]
        have happ : affApply w (cm, cp) (affApply w (am, ap) s)
            = (fun t => affApply w (cm, cp) t)^[1] (affApply w (am, ap) s) := by
          simp
        rw [happ, ← Function.iterate_add_apply]
        have hd : 2 * (delta / 2) + 1 = delta := by omega
        rw [hd]

theorem lcgStep_eq_affApply (w mul inc s : ℕ) :
    lcgStep w mul inc s = affApply w (mul, inc) s := by
  simp only [lcgStep, affApply]
  calc (inc + (s * mul) % 2 ^ w) % 2 ^ w
      = (inc + s * mul) % 2 ^ w := (Nat.mod_modEq (s * mul) (2 ^ w)).add_left inc
    _ = (mul * s + inc) % 2 ^ w := by ring_nf

theorem lcgIterN_eq_iterate (w mul inc : ℕ) : ∀ n s,
    lcgIterN w mul inc n s = (fun t => affApply w (mul, inc) t)^[n] s := by
  intro n
  induction n with
  | zero => intro s; rfl
  | succ n ih =>
    intro s
    rw [lcgIterN, lcgStep_eq_affApply, ih, ← Function.iterate_succ_apply]

/-- C1: `advance(delta)` transforms the state exactly as `delta`
applications of the LCG recurrence do (all arithmetic mod `2^w`);
consequently the `next` output after `advance(delta)` equals the output
of the `(delta+1)`-st sequential `next` call. -/
theorem advance_equals_iterated_next (w mul inc delta s : ℕ) (hs : s < 2 ^ w) :
    advance w mul inc delta s = lcgIterN w mul inc delta s ∧
    ∀ output : ℕ → ℕ,
      (engineNext w mul output ⟨advance w mul inc delta s, inc⟩).1
        = (engineNext w mul output ⟨lcgIterN w mul inc delta s, inc⟩).1 := by
  have key : advance w mul inc delta s = lcgIterN w mul inc delta s := by
    have hadv : advance w mul inc delta s
        = affApply w (advanceLoop w mul inc 1 0 delta) s := rfl
    rw [hadv, advanceLoop_affApply, lcgIterN_eq_iterate]
    have hid : affApply w (1, 0) s = s := by
      simp only [affApply]
      rw [one_mul, Nat.add_zero, Nat.mod_eq_of_lt hs]
    rw [hid]
  exact ⟨key, fun output => by rw [key]⟩

/-- Witness for C1 with 8-bit state width, the `u8` default multiplier
141, increment 77, delta 5, state 42. -/
theorem advance_equals_iterated_next_witness :
    42 < 2 ^ 8 ∧ advance 8 141 77 5 42 = lcgIterN 8 141 77 5 42 :=
  ⟨by norm_num, (advance_equals_iterated_next 8 141 77 5 42 (by norm_num)).1⟩

/-! ## Claim C8: `new_unseeded` and the default seed pattern

The engine-level `from_seed` implementation is not present under `src/`
(it exists only in commented-out code; the tests call it), so it is
modelled from the specification, over the default seed constants and the
byte codec of `src/seeds.rs`.  The engine-level `new_unseeded` IS
present: `make_generator!` in `src/lib.rs` defines it to zero the state
and take the stream strategy's `build()` default. -/

/-- `PcgSeeder::get` for a 128-bit field: the bounds check of
`src/seeds.rs` followed by `ReadByteOrder for u128 :: read` on the
remaining bytes. -/
def seederGet128 (data : List ℕ) (atPos : ℕ) : Option (ℕ × ℕ) :=
  if 16 > data.length - atPos then none
  else some (u128Read (data.drop atPos), atPos + 16)

/-- `PcgSeeder::seed_with_stream` for `u64` (`src/seeds.rs`): a buffer of
`2 × 8` bytes, seed first, stream second, each written little-endian. -/
def seedWithStreamData64 (seed stream : ℕ) : List ℕ :=
  u64Write seed ++ u64Write stream

/-- `PcgSeeder::seed_with_stream` for `u128` (`src/seeds.rs`): a buffer of
`2 × 16` bytes, seed first, stream second, each written by the 128-bit
codec. -/
def seedWithStreamData128 (seed stream : ℕ) : List ℕ :=
  u128Write seed ++ u128Write stream

/-- `Default for PcgSeeder<u64>` (`src/seeds.rs`). -/
def defaultSeedData64 : List ℕ :=
  seedWithStreamData64 0x18013CAD3A483F72 0x51DBFCDA0D6B21D4

/-- `Default for PcgSeeder<u128>` (`src/seeds.rs`). -/
def defaultSeedData128 : List ℕ :=
  seedWithStreamData128 0xECC1C32BE531D51A93DCE189F91629F4
    0xF1CB2035E14FF74B46EF3505C5386547

/-- Modelled from the spec: `from_seed(seed_bytes)` for 64-bit state width
(the engine implementation is absent from `src/`): decode State and then
Stream via the Seed Codec and construct the generator. -/
def fromSeed64 (buf : List ℕ) : Option Engine :=
  match seederGet 8 buf 0 with
  | none => none
  | some (state, pos) =>
    match seederGet 8 buf pos with
    | none => none
    | some (stream, _) => some ⟨state, stream⟩

/-- Modelled from the spec: `from_seed(seed_bytes)` for 128-bit state
width (the engine implementation is absent from `src/`). -/
def fromSeed128 (buf : List ℕ) : Option Engine :=
  match seederGet128 buf 0 with
  | none => none
  | some (state, pos) =>
    match seederGet128 buf pos with
    | none => none
    | some (stream, _) => some ⟨state, stream⟩

/-- `new_unseeded()` for `Pcg32` = `SetseqXshRr6432`, translated from
`make_generator!` in `src/lib.rs`: the state is `u64::zero()` and the
stream is `SpecificSeqStream::<u64>::build()`. -/
def pcg32NewUnseeded : Engine :=
  { state := 0, inc := specificSeqBuild64 }

/-- `new_unseeded()` for the 128-bit-state `Pcg64` = `SetseqXshRre12864`,
translated from `make_generator!` in `src/lib.rs`: zero state and the
`SpecificSeqStream` 128-bit `build()` default. -/
def pcg64NewUnseeded : Engine :=
  { state := 0, inc := specificSeqBuild128 }

/-- C8 counterexample: `new_unseeded()` is NOT equivalent to `from_seed`
applied to the default `PcgSeeder` byte pattern.  The live
`make_generator!` code zeroes the state, while decoding the default
pattern yields the documented nonzero pair, at both widths. -/
theorem newUnseeded_not_default_decoded :
    pcg32NewUnseeded.state = 0 ∧
    fromSeed64 defaultSeedData64 = some ⟨0x18013CAD3A483F72, 0x51DBFCDA0D6B21D4⟩ ∧
    some pcg32NewUnseeded ≠ fromSeed64 defaultSeedData64 ∧
    fromSeed128 defaultSeedData128
      = some ⟨0xECC1C32BE531D51A93DCE189F91629F4, 0xF1CB2035E14FF74B46EF3505C5386547⟩ ∧
    some pcg64NewUnseeded ≠ fromSeed128 defaultSeedData128 :=
  ⟨rfl, by decide, by decide, by decide, by decide⟩

/-- C8 amended: `new_unseeded()` constructs the generator with state 0 and
the stream strategy's `build()` default — the `OneSeq` constant of the
width — rather than the pair decoded from the `PcgSeeder` default byte
pattern.  The pair is still a fixed, publicly known constant (not
entropy), so any two `new_unseeded()` instances of the same type are
identical and produce identical, reproducible output sequences; for
`Pcg32` the sequence begins 0, 1613493245, 3894649422. -/
theorem newUnseeded_fixed_constants :
    pcg32NewUnseeded = { state := 0, inc := oneSeqInc64 } ∧
    pcg64NewUnseeded = { state := 0, inc := oneSeqInc128 } ∧
    (pcg32Next pcg32NewUnseeded).1 = 0 ∧
    (pcg32Next (pcg32Next pcg32NewUnseeded).2).1 = 1613493245 ∧
    (pcg32Next (pcg32Next (pcg32Next pcg32NewUnseeded).2).2).1 = 3894649422 :=
  ⟨rfl, rfl, by decide, by decide, by decide⟩

end PcgRand
